import Mathlib

/-!
# Verification of the Luma RAG core (indexer / query)

Shallow embedding of the RAG subsystem of the Luma repository:
`luma_mod/rag/indexer.py` and `luma_mod/rag/query.py`, plus the pieces of
`luma_mod/rag/watcher.py` relevant to deletion handling.

Modelling conventions:
* Python strings are `List Char` (`Str` below); Python string methods
  (`strip`, `split`, slicing) are translated char-for-char.
* The FAISS vector store is append-only and the embedding model is
  deterministic, so a stored vector is represented by the chunk text it
  embeds.  A row of the store is therefore a `Str`.
* File-system effects are explicit state: `RagDisk` holds the persisted
  FAISS file and the `meta.jsonl` sidecar.  A sidecar line that fails JSON
  parsing is modelled as `none`.
* Results of external collaborators (`os.stat`, text extraction,
  `datetime.fromisoformat`, the FAISS `index.search` call, the
  sentence-transformers encoder) are inputs of the translated functions,
  so every theorem quantifies over all of their possible outputs.
-/

abbrev Str := List Char

/-- Python whitespace for `str.strip` / `str.split` (ASCII part). -/
def pyIsSpace (c : Char) : Bool :=
  c = ' ' || c = '\t' || c = '\n' || c = '\r' || c = '\x0b' || c = '\x0c'

/-- Python `str.lstrip()`. -/
def lstrip (s : Str) : Str := s.dropWhile pyIsSpace

/-- Python `str.rstrip()`. -/
def rstrip (s : Str) : Str := (s.reverse.dropWhile pyIsSpace).reverse

/-- Python `str.strip()`. -/
def pyStrip (s : Str) : Str := rstrip (lstrip s)

/-- Python `text.split("\n\n")`: split on non-overlapping occurrences of a
blank-line separator, leftmost first. -/
def splitPara : Str → List Str
  | '\n' :: '\n' :: rest => [] :: splitPara rest
  | c :: rest =>
    match splitPara rest with
    | [] => [[c]]
    | h :: t => (c :: h) :: t
  | [] => [[]]

/-- The hard-wrap slice loop of `iter_sliding_windows`
(`for i in range(0, len(buf), step): sub = buf[i:i+step]; if sub: ...`),
for a positive step. -/
def slices (step : Nat) (s : Str) : List Str :=
  if h : s = [] ∨ step = 0 then []
  else s.take step :: slices step (s.drop step)
termination_by s.length
decreasing_by
  simp only [not_or] at h
  have h1 : s ≠ [] := h.1
  have h2 : step ≠ 0 := h.2
  have : 0 < s.length := List.length_pos.mpr h1
  have : 0 < step := Nat.pos_of_ne_zero h2
  simp [List.length_drop]
  omega

/-- The paragraph-accumulation loop of `iter_sliding_windows`
(`indexer.py` lines 127-147), with the running buffer made explicit. -/
def chunkLoop (maxC ov : Nat) : List Str → Str → List Str
  | [], buf => if buf = [] then [] else [buf]
  | p :: ps, buf =>
    if buf = [] then chunkLoop maxC ov ps p
    else if buf.length + 2 + p.length ≤ maxC then
      chunkLoop maxC ov ps (buf ++ ('\n' :: '\n' :: p))
    else
      let tail := if 0 < ov then buf.drop (buf.length - ov) else []
      let nb := pyStrip (tail ++ ('\n' :: '\n' :: p))
      if maxC < nb.length then
        buf :: (slices (maxC - ov) nb ++ chunkLoop maxC ov ps [])
      else
        buf :: chunkLoop maxC ov ps nb

/-- The paragraph list computed at `indexer.py` lines 123-125:
split the stripped text on blank lines, strip each piece, drop empties,
and fall back to the whole text when nothing remains. -/
def paragraphsOf (text : Str) : List Str :=
  let t := pyStrip text
  let ps := (splitPara t).filterMap fun p =>
    let q := pyStrip p
    if q = [] then none else some q
  if ps = [] then [t] else ps

/-- `iter_sliding_windows(text, max_chars, overlap)` (`indexer.py`
lines 118-148). -/
def iter_sliding_windows (maxC ov : Nat) (text : Str) : List Str :=
  let t := pyStrip text
  if t = [] then []
  else chunkLoop maxC ov (paragraphsOf text) []

example : iter_sliding_windows 3 1 "aaaaa".data = ["aaaaa".data] := by decide

example : iter_sliding_windows 10 2 "".data = [] := by decide

/-- Word accumulator for `pySplitWs`: `cur` holds the characters of the
word in progress, most recent first; a whitespace character flushes it. -/
def pySplitWsAux (cur : Str) : Str → List Str
  | [] => if cur = [] then [] else [cur.reverse]
  | c :: rest =>
    if pyIsSpace c then
      if cur = [] then pySplitWsAux [] rest
      else cur.reverse :: pySplitWsAux [] rest
    else pySplitWsAux (c :: cur) rest

/-- Python `text.split()` (no argument): split on runs of whitespace,
dropping empty pieces. -/
def pySplitWs (s : Str) : List Str := pySplitWsAux [] s

example : pySplitWs "  a bb  c ".data = ["a".data, "bb".data, "c".data] := by
  decide

/-- Python `sep.join(parts)`. -/
def pyJoin (sep : Str) : List Str → Str
  | [] => []
  | [x] => x
  | x :: y :: t => x ++ sep ++ pyJoin sep (y :: t)

/-- Python `str(page) if page is not None else "-"`. -/
def pageStr : Option Nat → Str
  | none => ['-']
  | some n => Nat.toDigits 10 n

/--
`sha1_of_text(text, path, page)` (`indexer.py` lines 43-47).

The function normalizes whitespace, concatenates
`normalized + "|" + path + "|" + str(page or "-")` and hashes the result
with SHA-1.  SHA-1 itself is an external, deterministic digest; it is
modelled as the identity on the hashed payload (a collision-free
abstraction): two chunks receive the same hash exactly when their
normalized payloads coincide.
-/
def sha1_of_text (text path : Str) (page : Option Nat) : Str :=
  pyJoin [' '] (pySplitWs text) ++ ('|' :: path) ++ ('|' :: pageStr page)

/-- Python `os.path.dirname` for ordinary POSIX paths: everything before
the last slash. -/
def dirname (p : Str) : Str :=
  ((p.reverse.dropWhile (fun c => c ≠ '/')).drop 1).reverse

/-- Python `os.path.basename` for ordinary POSIX paths: everything after
the last slash. -/
def basename (p : Str) : Str :=
  (p.reverse.takeWhile (fun c => c ≠ '/')).reverse

/-- One record of the `meta.jsonl` sidecar (`MetaEntry` dataclass,
`indexer.py` lines 151-160). -/
structure MetaEntry where
  id : Nat
  path : Str
  folder : Str
  mtime_iso : Str
  page : Option Nat
  text_hash : Str
  text : Str
  deleted : Bool
deriving Repr, DecidableEq

/--
Persisted state of the index (`~/.luma/rag_db`).

* `faissFile`: the FAISS file; `none` when absent (a corrupt, unreadable
  file behaves identically to an absent one in both `_lazy_index`
  implementations, so the two are collapsed).  A row is the text whose
  embedding is stored there (the encoder is deterministic).
* `metaFile`: the lines of `meta.jsonl`; a line that fails JSON parsing
  is `none`.  An absent sidecar behaves like an empty one in every
  reader (`read_meta_lines` yields nothing, `_soft_delete_path` returns
  0), so absence is collapsed into `[]`.
-/
structure RagDisk where
  faissFile : Option (List Str)
  metaFile : List (Option MetaEntry)
deriving Repr, DecidableEq

/-- In-memory state of a `RAGIndex` object (`indexer.py` lines 170-174):
the lazily loaded FAISS index and the cached vector count `self.size`. -/
structure RAGIndex where
  index : Option (List Str)
  size : Nat
deriving Repr, DecidableEq

/-- `RAGIndex.__init__`: no index loaded, `size = 0`. -/
def RAGIndex.init : RAGIndex := { index := none, size := 0 }

/-- `RAGIndex._lazy_index` (`indexer.py` lines 184-200): return the
in-memory index if present, otherwise read the persisted file (setting
`self.size = ntotal`), otherwise start a fresh empty index. -/
def lazyIndex (s : RAGIndex) (d : RagDisk) : List Str × RAGIndex :=
  match s.index with
  | some v => (v, s)
  | none =>
    match d.faissFile with
    | some rows => (rows, { index := some rows, size := rows.length })
    | none => ([], { index := some [], size := 0 })

/-- The line loop of `RAGIndex._soft_delete_path` (`indexer.py` lines
233-242): unparseable lines are skipped (dropped from the rewrite), a
parsed object matching the path and not yet deleted is counted and
rewritten with `deleted = True`, everything else is rewritten as is.
Returns (number marked, rewritten lines). -/
def softDeleteLoop (path : Str) : List (Option MetaEntry) → Nat × List MetaEntry
  | [] => (0, [])
  | none :: rest => softDeleteLoop path rest
  | some e :: rest =>
    let r := softDeleteLoop path rest
    if e.path = path ∧ e.deleted = false then
      (r.1 + 1, { e with deleted := true } :: r.2)
    else
      (r.1, e :: r.2)

/-- `RAGIndex._soft_delete_path` (`indexer.py` lines 225-244): rewrite the
sidecar, returning the count of entries marked and the new file (every
rewritten line parses). -/
def soft_delete_path (path : Str) (metaFile : List (Option MetaEntry)) :
    Nat × List (Option MetaEntry) :=
  ((softDeleteLoop path metaFile).1, (softDeleteLoop path metaFile).2.map some)

example :
    soft_delete_path "/a".data
      [some ⟨0, "/a".data, [], [], none, [], "t".data, false⟩, none,
       some ⟨1, "/b".data, [], [], none, [], "u".data, false⟩] =
    (1, [some ⟨0, "/a".data, [], [], none, [], "t".data, true⟩,
         some ⟨1, "/b".data, [], [], none, [], "u".data, false⟩]) := by decide

/-- Result of `load_text_from_file` (`indexer.py` lines 50-115), an
external extraction step whose outcome is an input here: the full text
and, for paged formats (PDF/PPTX), the per-page texts. -/
structure Extracted where
  full_text : Str
  paged : Option (List (Nat × Str))
deriving Repr, DecidableEq

/-- Summary dict returned by `RAGIndex.index_file`. -/
structure IndexResult where
  added : Nat
  deleted : Nat
deriving Repr, DecidableEq

/-- The dedup loop of `RAGIndex.index_file` (`indexer.py` lines 283-294):
walk the (page, chunk) pairs, skip chunks whose hash was already seen,
and build metadata entries with `id = size0 + len(texts so far)`.
Returns (metas, texts). -/
def dedupLoop (size0 : Nat) (path folder mtime : Str) (seen : List Str)
    (tcount : Nat) : List (Option Nat × Str) → List MetaEntry × List Str
  | [] => ([], [])
  | (page, chunk) :: rest =>
    let h := sha1_of_text chunk path page
    if h ∈ seen then dedupLoop size0 path folder mtime seen tcount rest
    else
      let m : MetaEntry :=
        { id := size0 + tcount, path := path, folder := folder,
          mtime_iso := mtime, page := page, text_hash := h, text := chunk,
          deleted := false }
      let r := dedupLoop size0 path folder mtime (h :: seen) (tcount + 1) rest
      (m :: r.1, chunk :: r.2)

/-- The (page, chunk) pairs built at `indexer.py` lines 268-277: chunk
per page when the extraction is paged and non-empty (Python truthiness of
`paged`), else chunk the full text; keep only chunks whose `strip()` is
non-empty. -/
def chunkEntries (ex : Extracted) : List (Option Nat × Str) :=
  match ex.paged with
  | some (pg :: pgs) =>
    (pg :: pgs).flatMap fun pr =>
      ((iter_sliding_windows 1200 200 pr.2).filter
        (fun c => pyStrip c ≠ [])).map fun c => (some pr.1, c)
  | _ =>
    ((iter_sliding_windows 1200 200 ex.full_text).filter
      (fun c => pyStrip c ≠ [])).map fun c => ((none : Option Nat), c)

/-- `read_meta_lines()` (`indexer.py` lines 347-357): yield the parsed
objects, skipping lines that fail JSON parsing. -/
def read_meta_lines (metaFile : List (Option MetaEntry)) : List MetaEntry :=
  metaFile.filterMap id

/-- The per-entry filter of `_prefilter_meta` (`query.py` lines 52-67):
drop deleted entries; drop folder mismatches when a folder is given
(empty string models Python falsy `None`/`""`); with a non-empty
`prefilter_paths`, drop entries whose path starts with none of them;
drop entries outside the parsed time window, keeping entries whose
`mtime_iso` fails to parse (`fromiso` models
`datetime.fromisoformat`, an external collaborator). -/
def keepEntry (fromiso : Str → Option Int) (folder : Str)
    (t_from t_to : Option Int) (pf : List Str) (m : MetaEntry) : Bool :=
  if m.deleted then false
  else if folder ≠ [] ∧ m.folder ≠ folder then false
  else if pf ≠ [] ∧ pf.all (fun p => ¬ p.isPrefixOf m.path) then false
  else
    match fromiso m.mtime_iso with
    | none => true
    | some mt =>
      if t_from.any (fun f => decide (mt < f)) then false
      else if t_to.any (fun t => decide (t < mt)) then false
      else true

/-- `_prefilter_meta` (`query.py` lines 47-68). -/
def prefilter_meta (fromiso : Str → Option Int) (items : List MetaEntry)
    (folder : Str) (t_from t_to : Option Int) (pf : List Str) :
    List MetaEntry :=
  items.filter (keepEntry fromiso folder t_from t_to pf)

/-- The width passed to `index.search` (`query.py` line 91):
`min(k * 5, max(50, k * 3))`. -/
def overfetch (k : Nat) : Nat := min (k * 5) (max 50 (k * 3))

/-- The candidate loop of `search` (`query.py` lines 92-101): walk the
FAISS (row, score) pairs in order, skip ids already seen (adding to the
seen set *before* the range guard, as in the source), and drop negative
ids. -/
def dedupCandidates (seen : List Int) :
    List (Int × Int) → List (Int × Int)
  | [] => []
  | (i, sc) :: rest =>
    if i ∈ seen then dedupCandidates seen rest
    else if i < 0 then dedupCandidates (i :: seen) rest
    else (i, sc) :: dedupCandidates (i :: seen) rest

/-- The dict `meta_by_id = ``{ int(m["id"]): m }`` (`query.py` line 104):
on duplicate ids the later entry wins, so lookup returns the last match. -/
def metaById (metas : List MetaEntry) (i : Int) : Option MetaEntry :=
  (metas.filter (fun m => (m.id : Int) = i)).getLast?

/-- Stable insertion (descending by score) for `hits.sort(key=lambda x:
x[0], reverse=True)` (`query.py` line 112): an element is placed after
every earlier element with a score ≥ its own, which is exactly the
stable descending order Python's sort produces. -/
def insertHit (x : Int × MetaEntry) :
    List (Int × MetaEntry) → List (Int × MetaEntry)
  | [] => [x]
  | y :: ys => if y.1 < x.1 then x :: y :: ys else y :: insertHit x ys

/-- Stable sort by score descending, processing hits in list order. -/
def sortHits : List (Int × MetaEntry) → List (Int × MetaEntry)
  | [] => []
  | x :: xs => insertHit x (sortHits xs)

/--
`search(query, k, folder, time_from, time_to, prefilter_paths)`
(`query.py` lines 71-113).

External inputs made explicit:
* `fromiso` — `datetime.fromisoformat` applied to an entry timestamp
  (`none` models a raised `ValueError`, caught and ignored);
* `idx` — the result of the module-level `_lazy_index()`: `none` when
  FAISS is unavailable, the file is absent, or reading it raises;
* `modelOk` — whether `_lazy_model()` returned a model;
* `faissSearch n` — the `(row, score)` pairs returned by
  `index.search(qv, n)` for the embedded query, in FAISS rank order;
  scores are modelled as integers (their only uses are comparison and
  sorting);
* `t_from`/`t_to` — the parsed time bounds (`None`/empty-string bounds
  collapse to `none`).

The metadata prefilter, the backoff when the path prefilter empties the
candidate set, the over-fetched FAISS query, the id join, the descending
stable sort and the final `take k` are all translated from the source.
-/
def search (fromiso : Str → Option Int) (idx : Option (List Str))
    (modelOk : Bool) (metaFile : List (Option MetaEntry))
    (faissSearch : Nat → List (Int × Int)) (k : Nat) (folder : Str)
    (t_from t_to : Option Int) (prefilter_paths : List Str) :
    List (Int × MetaEntry) :=
  match idx with
  | none => []
  | some rows =>
    if rows.length = 0 then []
    else if modelOk = false then []
    else
      let metas_all := read_meta_lines metaFile
      let metas0 :=
        prefilter_meta fromiso metas_all folder t_from t_to prefilter_paths
      let metas :=
        if metas0 = [] ∧ prefilter_paths ≠ [] then
          prefilter_meta fromiso metas_all folder t_from t_to []
        else metas0
      if metas = [] then []
      else
        let raw := faissSearch (overfetch k)
        let candidates := dedupCandidates [] raw
        let hits := candidates.filterMap fun c =>
          (metaById metas c.1).map fun m => (c.2, m)
        (sortHits hits).take k

/--
`RAGIndex.index_file(path)` (`indexer.py` lines 246-314).

External inputs made explicit: `extSupported` is the extension check
(line 252-254), `statResult` is `os.stat` — `some mtime_iso` on success,
`none` when the call raises (file absent/unreadable, lines 255-259) —
and `ex` is the extraction result.  The embedding model is assumed
available (its absence raises out of `_embed`, leaving all state
untouched except the soft-delete already performed).

Returns (summary, new in-memory state, new disk state).  Note the order
of operations taken verbatim from the source: metadata ids are computed
from `self.size` (line 292) *before* `_lazy_index()` is first called
(line 300).
-/
def index_file (s : RAGIndex) (d : RagDisk) (path : Str) (extSupported : Bool)
    (statResult : Option Str) (ex : Extracted) :
    IndexResult × RAGIndex × RagDisk :=
  if extSupported = false then (⟨0, 0⟩, s, d)
  else
    match statResult with
    | none => (⟨0, 0⟩, s, d)
    | some mtime =>
      let sd := soft_delete_path path d.metaFile
      let del := sd.1
      let d1 : RagDisk := { d with metaFile := sd.2 }
      if pyStrip ex.full_text = [] then (⟨0, del⟩, s, d1)
      else
        let entries := chunkEntries ex
        if entries = [] then (⟨0, del⟩, s, d1)
        else
          let folder := basename (dirname path)
          let mt := dedupLoop s.size path folder mtime [] 0 entries
          let metas := mt.1
          let texts := mt.2
          if texts = [] then (⟨0, del⟩, s, d1)
          else
            let li := lazyIndex s d1
            let newIdx := li.1 ++ texts
            let s2 : RAGIndex := { index := some newIdx, size := newIdx.length }
            let d2 : RagDisk :=
              { faissFile := some newIdx,
                metaFile := d1.metaFile ++ metas.map some }
            (⟨texts.length, del⟩, s2, d2)

/-! ## Claim C9: empty / absent / unreadable vector store -/

/-- C9: for every query and filter arguments, `search` against an empty
vector store (a freshly created, never-populated index persists nothing,
so `_lazy_index()` yields `none`), an absent store, or an unreadable one
returns the empty list.  The embedding is a total function, so no
exception can be raised on this path. -/
theorem search_empty_index_returns_nothing (fromiso : Str → Option Int)
    (idx : Option (List Str)) (modelOk : Bool)
    (metaFile : List (Option MetaEntry)) (faissSearch : Nat → List (Int × Int))
    (k : Nat) (folder : Str) (t_from t_to : Option Int) (pf : List Str)
    (h : idx = none ∨ idx = some []) :
    search fromiso idx modelOk metaFile faissSearch k folder t_from t_to pf
      = [] := by
  rcases h with h | h <;> subst h <;> simp [search]

/-- Witness for C9 at a concrete never-populated index. -/
theorem search_empty_index_returns_nothing_witness :
    ((none : Option (List Str)) = none ∨ (none : Option (List Str)) = some []) ∧
      search (fun _ => none) none true [] (fun _ => []) 5 [] none none [] = [] :=
  ⟨Or.inl rfl,
    search_empty_index_returns_nothing (fun _ => none) none true [] (fun _ => [])
      5 [] none none [] (Or.inl rfl)⟩

/-! ## Claim C3: the over-fetch width of the vector search -/

/-- C3 counterexample: the claim says the store is queried for the top
`max(5 * k, 50)` neighbors, but the width used at `query.py` line 91 is
`min(k * 5, max(50, k * 3))`; at `k = 1` the code queries 5 neighbors,
not 50 (and at the default `k = 20` it queries 60, not 100). -/
theorem overfetch_width_ne_claimed :
    overfetch 1 ≠ max (5 * 1) 50 ∧ overfetch 20 ≠ max (5 * 20) 50 := by decide

/-- C3 amended: `search` consults the vector store at width
`min(k * 5, max(50, k * 3))` — and at no other width: two FAISS oracles
that agree on that single width produce identical search results. -/
theorem search_consults_store_at_overfetch_width (fromiso : Str → Option Int)
    (idx : Option (List Str)) (modelOk : Bool)
    (metaFile : List (Option MetaEntry)) (f g : Nat → List (Int × Int))
    (k : Nat) (folder : Str) (t_from t_to : Option Int) (pf : List Str)
    (h : f (min (k * 5) (max 50 (k * 3))) = g (min (k * 5) (max 50 (k * 3)))) :
    search fromiso idx modelOk metaFile f k folder t_from t_to pf
      = search fromiso idx modelOk metaFile g k folder t_from t_to pf := by
  have h2 : f (overfetch k) = g (overfetch k) := h
  cases idx <;> simp [search, h2]

/-- Witness for C3's amended claim: two oracles differing away from the
computed width still yield the same result at `k = 1`. -/
theorem search_consults_store_at_overfetch_width_witness :
    (fun _ : Nat => ([] : List (Int × Int))) (min (1 * 5) (max 50 (1 * 3)))
        = (fun n : Nat => if n = 5 then [] else [(0, 1)])
            (min (1 * 5) (max 50 (1 * 3))) ∧
      search (fun _ => none) (some ["x".data]) true [] (fun _ => []) 1 [] none
          none []
        = search (fun _ => none) (some ["x".data]) true []
            (fun n => if n = 5 then [] else [(0, 1)]) 1 [] none none [] :=
  ⟨by decide,
    search_consults_store_at_overfetch_width (fun _ => none) (some ["x".data])
      true [] (fun _ => []) (fun n => if n = 5 then [] else [(0, 1)]) 1 [] none
      none [] (by decide)⟩

/-! ## Claim C10: the soft-delete rewrite -/

/-- Helper: the count returned by the soft-delete loop is the number of
parseable entries for the path that were still active. -/
theorem softDeleteLoop_count (path : Str) (l : List (Option MetaEntry)) :
    (softDeleteLoop path l).1
      = (l.filterMap id).countP
          (fun m => decide (m.path = path ∧ m.deleted = false)) := by
  induction l with
  | nil => rfl
  | cons o rest ih =>
    cases o with
    | none => simpa [softDeleteLoop] using ih
    | some e =>
      by_cases hc : e.path = path ∧ e.deleted = false <;>
        simp [softDeleteLoop, hc, List.countP_cons, ih]

/-- Helper: the rewritten lines are the parseable lines in order, with
exactly the active entries of the path flipped to deleted. -/
theorem softDeleteLoop_out (path : Str) (l : List (Option MetaEntry)) :
    (softDeleteLoop path l).2
      = (l.filterMap id).map
          (fun m =>
            if m.path = path ∧ m.deleted = false then
              { m with deleted := true } else m) := by
  induction l with
  | nil => rfl
  | cons o rest ih =>
    cases o with
    | none => simpa [softDeleteLoop] using ih
    | some e =>
      by_cases hc : e.path = path ∧ e.deleted = false <;>
        simp [softDeleteLoop, hc, ih]

/-- C10: `_soft_delete_path(P)` drops unparseable lines, keeps every other
line in its original relative order flipping exactly the active entries
for `P` to `deleted = True`, returns the number of entries so flipped,
and returns 0 when run again on its own output. -/
theorem soft_delete_rewrite_spec (path : Str) (metaFile : List (Option MetaEntry)) :
    (soft_delete_path path metaFile).1
        = (read_meta_lines metaFile).countP
            (fun m => decide (m.path = path ∧ m.deleted = false))
      ∧ (soft_delete_path path metaFile).2
          = (metaFile.filterMap id).map
              (fun m => some
                (if m.path = path ∧ m.deleted = false then
                  { m with deleted := true } else m))
      ∧ (soft_delete_path path (soft_delete_path path metaFile).2).1 = 0 := by
  refine ⟨softDeleteLoop_count path metaFile, ?_, ?_⟩
  · simp [soft_delete_path, softDeleteLoop_out, List.map_map]
  · simp only [soft_delete_path, softDeleteLoop_count]
    have hclean : (((softDeleteLoop path metaFile).2.map some).filterMap id)
        = (softDeleteLoop path metaFile).2 := by
      simp [List.filterMap_map]
    rw [hclean, softDeleteLoop_out, List.countP_eq_zero]
    intro a ha
    obtain ⟨m, hm, rfl⟩ := List.mem_map.mp ha
    by_cases hc : m.path = path ∧ m.deleted = false <;> simp [hc]

/-! ## Claim C7: soft-deleted entries never surface in search results -/

/-- Helper: stable insertion only adds the inserted element. -/
theorem mem_insertHit {x y : Int × MetaEntry} :
    ∀ {l : List (Int × MetaEntry)}, x ∈ insertHit y l → x = y ∨ x ∈ l
  | [], h => by simpa [insertHit] using h
  | z :: zs, h => by
    by_cases hz : z.1 < y.1
    · simpa [insertHit, hz, or_assoc] using h
    · simp only [insertHit, if_neg hz, List.mem_cons] at h
      rcases h with h | h
      · exact Or.inr (by simp [h])
      · rcases mem_insertHit h with h | h
        · exact Or.inl h
        · exact Or.inr (List.mem_cons_of_mem _ h)

/-- Helper: the stable sort is a permutation-level no-op for membership. -/
theorem mem_sortHits {x : Int × MetaEntry} :
    ∀ {l : List (Int × MetaEntry)}, x ∈ sortHits l → x ∈ l
  | [], h => by simpa [sortHits] using h
  | z :: zs, h => by
    rcases mem_insertHit (by simpa [sortHits] using h) with h | h
    · simp [h]
    · exact List.mem_cons_of_mem _ (mem_sortHits h)

/-- Helper: the id-join dictionary only returns entries of the filtered
metadata list. -/
theorem metaById_mem {metas : List MetaEntry} {i : Int} {m : MetaEntry}
    (h : metaById metas i = some m) : m ∈ metas := by
  have := List.mem_of_mem_getLast? h
  exact List.mem_of_mem_filter this

/-- Helper: an entry passing the metadata prefilter is not deleted. -/
theorem keepEntry_not_deleted {fromiso : Str → Option Int} {folder : Str}
    {t_from t_to : Option Int} {pf : List Str} {m : MetaEntry}
    (h : keepEntry fromiso folder t_from t_to pf m = true) :
    m.deleted = false := by
  by_cases hd : m.deleted
  · simp [keepEntry, hd] at h
  · simpa using hd

/-- C7: for every query, every filter combination and every behavior of
the external collaborators, `search` never returns a metadata entry whose
`deleted` flag is true — in particular no soft-deleted entry of any path
ever surfaces, with or without a path filter. -/
theorem search_excludes_deleted (fromiso : Str → Option Int)
    (idx : Option (List Str)) (modelOk : Bool)
    (metaFile : List (Option MetaEntry)) (faissSearch : Nat → List (Int × Int))
    (k : Nat) (folder : Str) (t_from t_to : Option Int) (pf : List Str)
    (sc : Int) (m : MetaEntry)
    (h : (sc, m) ∈ search fromiso idx modelOk metaFile faissSearch k folder
      t_from t_to pf) :
    m.deleted = false := by
  cases idx with
  | none => simp [search] at h
  | some rows =>
    simp only [search] at h
    by_cases hr : rows.length = 0
    · simp [hr] at h
    · rw [if_neg hr] at h
      by_cases hm : modelOk = false
      · simp [hm] at h
      · rw [if_neg hm] at h
        set metas_all := read_meta_lines metaFile with hma
        set metas0 :=
          prefilter_meta fromiso metas_all folder t_from t_to pf with hm0
        set metas := if metas0 = [] ∧ pf ≠ [] then
          prefilter_meta fromiso metas_all folder t_from t_to [] else metas0
          with hmet
        by_cases hme : metas = []
        · simp [hme] at h
        · rw [if_neg hme] at h
          have h2 := mem_sortHits (List.mem_of_mem_take h)
          obtain ⟨c, _, hc⟩ := List.mem_filterMap.mp h2
          obtain ⟨m2, hm2, heq⟩ := Option.map_eq_some'.mp hc
          have hm2m : m2 = m := congrArg Prod.snd heq
          rw [hm2m] at hm2
          have hmm : m ∈ metas := metaById_mem hm2
          have hkeep : keepEntry fromiso folder t_from t_to pf m = true ∨
              keepEntry fromiso folder t_from t_to [] m = true := by
            by_cases hcnd : metas0 = [] ∧ pf ≠ []
            · right
              rw [hmet, if_pos hcnd] at hmm
              exact List.of_mem_filter hmm
            · left
              rw [hmet, if_neg hcnd] at hmm
              exact List.of_mem_filter hmm
          rcases hkeep with hk | hk
          · exact keepEntry_not_deleted hk
          · exact keepEntry_not_deleted hk

/-- Witness for C7: a concrete search returning one active entry. -/
theorem search_excludes_deleted_witness :
    ((7 : Int), (⟨0, "/a".data, [], [], none, [], "t".data, false⟩ : MetaEntry))
        ∈ search (fun _ => none) (some ["t".data]) true
          [some ⟨0, "/a".data, [], [], none, [], "t".data, false⟩]
          (fun _ => [(0, 7)]) 5 [] none none [] ∧
      (⟨0, "/a".data, [], [], none, [], "t".data, false⟩ : MetaEntry).deleted
        = false :=
  ⟨by decide,
    search_excludes_deleted (fun _ => none) (some ["t".data]) true
      [some ⟨0, "/a".data, [], [], none, [], "t".data, false⟩]
      (fun _ => [(0, 7)]) 5 [] none none [] 7
      ⟨0, "/a".data, [], [], none, [], "t".data, false⟩ (by decide)⟩

/-! ## Claim C8: backoff when the path prefilter empties the candidates -/

/-- C8: when `prefilter_paths` is given (non-empty) and the filtered
candidate set comes out empty, `search` behaves exactly as the same call
with the path prefilter dropped: the same metadata is re-filtered with
only the folder and time constraints, so a search never returns zero
results solely because of the path hint. -/
theorem search_path_backoff (fromiso : Str → Option Int)
    (idx : Option (List Str)) (modelOk : Bool)
    (metaFile : List (Option MetaEntry)) (faissSearch : Nat → List (Int × Int))
    (k : Nat) (folder : Str) (t_from t_to : Option Int) (pf : List Str)
    (h1 : pf ≠ [])
    (h2 : prefilter_meta fromiso (read_meta_lines metaFile) folder t_from t_to
      pf = []) :
    search fromiso idx modelOk metaFile faissSearch k folder t_from t_to pf
      = search fromiso idx modelOk metaFile faissSearch k folder t_from t_to
          [] := by
  cases idx with
  | none => rfl
  | some rows => simp [search, h1, h2]

/-- Witness for C8: one active entry under `/a`, searched with the
unsatisfiable path hint `/zzz`. -/
theorem search_path_backoff_witness :
    ("/zzz".data :: [] ≠ ([] : List Str)) ∧
      prefilter_meta (fun _ => none)
          (read_meta_lines
            [some ⟨0, "/a/x.txt".data, [], [], none, [], "t".data, false⟩])
          [] none none ["/zzz".data] = [] ∧
      search (fun _ => none) (some ["t".data]) true
          [some ⟨0, "/a/x.txt".data, [], [], none, [], "t".data, false⟩]
          (fun _ => [(0, 3)]) 4 [] none none ["/zzz".data]
        = search (fun _ => none) (some ["t".data]) true
            [some ⟨0, "/a/x.txt".data, [], [], none, [], "t".data, false⟩]
            (fun _ => [(0, 3)]) 4 [] none none [] :=
  ⟨by decide, by decide,
    search_path_backoff (fun _ => none) (some ["t".data]) true
      [some ⟨0, "/a/x.txt".data, [], [], none, [], "t".data, false⟩]
      (fun _ => [(0, 3)]) 4 [] none none ["/zzz".data] (by decide) (by decide)⟩

/-! ## Claim C1: id / row alignment on the first call of a fresh object -/

/-- C1 (code bug): `index_file` computes metadata ids from `self.size`
(`indexer.py` line 292) *before* `_lazy_index()` first loads the persisted
index (line 300).  On the first `index_file` call of a freshly constructed
`RAGIndex` with one vector already persisted, the new chunk's vector is
appended at row 1, yet its metadata entry is written with `id = 0` — the
id of the pre-existing row.  The claimed alignment (vector row `i` ↔
metadata `id = i`, ids starting at the store size immediately before the
append) is violated: the store ends as `[old, new]` while the sidecar
holds two entries both carrying `id = 0`. -/
theorem index_file_first_call_misaligns_ids :
    index_file RAGIndex.init
        { faissFile := some ["old".data],
          metaFile := [some ⟨0, "/d/a.txt".data, "d".data, "2024".data, none,
            "h".data, "old".data, false⟩] }
        "/d/b.txt".data true (some "2025".data) ⟨"new".data, none⟩
      = (⟨1, 0⟩,
         { index := some ["old".data, "new".data], size := 2 },
         { faissFile := some ["old".data, "new".data],
           metaFile :=
             [some ⟨0, "/d/a.txt".data, "d".data, "2024".data, none,
                "h".data, "old".data, false⟩,
              some ⟨0, "/d/b.txt".data, "d".data, "2025".data, none,
                sha1_of_text "new".data "/d/b.txt".data none, "new".data,
                false⟩] }) := by decide

/-! ## Claim C2: indexing a path whose file no longer exists -/

/-- C2 (code bug): for a path whose file has been deleted, `os.stat`
raises (`indexer.py` lines 255-259) and `index_file` returns
`(added = 0, deleted = 0)` *before* `_soft_delete_path` is ever reached —
the claimed pure soft-deletion never happens and the stale entry stays
active in the sidecar.  The watcher's `on_deleted` comment
(`watcher.py` line 75: the indexer handles soft-delete by path) documents
the intended behavior the code fails to implement. -/
theorem index_file_missing_file_skips_soft_delete :
    index_file RAGIndex.init
        { faissFile := some ["t".data],
          metaFile := [some ⟨0, "/d/gone.txt".data, "d".data, "2024".data,
            none, "h".data, "t".data, false⟩] }
        "/d/gone.txt".data true none ⟨[], none⟩
      = (⟨0, 0⟩, RAGIndex.init,
         { faissFile := some ["t".data],
           metaFile := [some ⟨0, "/d/gone.txt".data, "d".data, "2024".data,
             none, "h".data, "t".data, false⟩] }) := by decide

/-! ## Claim C6: re-indexing an unchanged file -/

/-- Number of active (non-deleted) sidecar entries for a path. -/
def countActive (path : Str) (mf : List (Option MetaEntry)) : Nat :=
  ((mf.filterMap id).filter
    (fun m => decide (m.path = path ∧ m.deleted = false))).length

/-- Hashes of the active sidecar entries for a path, in file order. -/
def activeHashes (path : Str) (mf : List (Option MetaEntry)) : List Str :=
  ((mf.filterMap id).filter
    (fun m => decide (m.path = path ∧ m.deleted = false))).map
      (fun m => m.text_hash)

/-- Helper: the dedup loop's texts, and its metadata entries up to their
ids, do not depend on the id base `size0` or the running text count. -/
theorem dedupLoop_indep (path folder mtime : Str) :
    ∀ (es : List (Option Nat × Str)) (s0 s0' t t' : Nat) (seen : List Str),
      (dedupLoop s0 path folder mtime seen t es).1.map
          (fun m => { m with id := 0 })
        = (dedupLoop s0' path folder mtime seen t' es).1.map
            (fun m => { m with id := 0 })
      ∧ (dedupLoop s0 path folder mtime seen t es).2
          = (dedupLoop s0' path folder mtime seen t' es).2
  | [], s0, s0', t, t', seen => by simp [dedupLoop]
  | (page, chunk) :: rest, s0, s0', t, t', seen => by
    by_cases hs : sha1_of_text chunk path page ∈ seen
    · simpa [dedupLoop, hs] using
        dedupLoop_indep path folder mtime rest s0 s0' t t' seen
    · have ih := dedupLoop_indep path folder mtime rest s0 s0' (t + 1)
        (t' + 1) (sha1_of_text chunk path page :: seen)
      simp [dedupLoop, hs, ih.1, ih.2]

/-- Helper: every entry built by the dedup loop carries the indexed path
and is active. -/
theorem dedupLoop_metas_active (path folder mtime : Str) :
    ∀ (es : List (Option Nat × Str)) (s0 t : Nat) (seen : List Str),
      ∀ m ∈ (dedupLoop s0 path folder mtime seen t es).1,
        m.path = path ∧ m.deleted = false
  | [], s0, t, seen => by simp [dedupLoop]
  | (page, chunk) :: rest, s0, t, seen => by
    by_cases hs : sha1_of_text chunk path page ∈ seen
    · simpa [dedupLoop, hs] using
        dedupLoop_metas_active path folder mtime rest s0 t seen
    · intro m hm
      simp only [dedupLoop, if_neg hs, List.mem_cons] at hm
      rcases hm with rfl | hm
      · exact ⟨rfl, rfl⟩
      · exact dedupLoop_metas_active path folder mtime rest s0 (t + 1)
          (sha1_of_text chunk path page :: seen) m hm

/-- Helper: the dedup loop emits exactly one metadata entry per kept
text. -/
theorem dedupLoop_length (path folder mtime : Str) :
    ∀ (es : List (Option Nat × Str)) (s0 t : Nat) (seen : List Str),
      (dedupLoop s0 path folder mtime seen t es).1.length
        = (dedupLoop s0 path folder mtime seen t es).2.length
  | [], s0, t, seen => by simp [dedupLoop]
  | (page, chunk) :: rest, s0, t, seen => by
    by_cases hs : sha1_of_text chunk path page ∈ seen
    · simpa [dedupLoop, hs] using
        dedupLoop_length path folder mtime rest s0 t seen
    · simpa [dedupLoop, hs] using
        dedupLoop_length path folder mtime rest s0 (t + 1)
          (sha1_of_text chunk path page :: seen)

/-- Helper: after the soft-delete rewrite, no entry for the path is
active. -/
theorem softDeleteLoop_no_active (path : Str) (l : List (Option MetaEntry)) :
    (softDeleteLoop path l).2.filter
      (fun m => decide (m.path = path ∧ m.deleted = false)) = [] := by
  rw [softDeleteLoop_out, List.filter_eq_nil_iff]
  intro a ha
  obtain ⟨m, hm, rfl⟩ := List.mem_map.mp ha
  by_cases hc : m.path = path ∧ m.deleted = false <;> simp [hc]

/-- Helper: pointwise form of `softDeleteLoop_no_active`. -/
theorem softDeleteLoop_mem_active (path : Str) (l : List (Option MetaEntry)) :
    ∀ a ∈ (softDeleteLoop path l).2, a.path = path → a.deleted = true := by
  intro a ha hp
  rw [softDeleteLoop_out] at ha
  obtain ⟨m, hm, rfl⟩ := List.mem_map.mp ha
  by_cases hc : m.path = path ∧ m.deleted = false
  · simp [hc]
  · rw [if_neg hc] at hp ⊢
    cases hd : m.deleted
    · exact absurd ⟨hp, hd⟩ hc
    · rfl

/-- Helper: the soft-delete rewrite leaves zero active entries for the
path. -/
theorem countActive_soft_delete (path : Str) (X : List (Option MetaEntry)) :
    countActive path (soft_delete_path path X).2 = 0 := by
  simp [countActive, soft_delete_path, List.filterMap_map]
  exact softDeleteLoop_mem_active path X

/-- Helper: likewise for the active hashes. -/
theorem activeHashes_soft_delete (path : Str) (X : List (Option MetaEntry)) :
    activeHashes path (soft_delete_path path X).2 = [] := by
  simp [activeHashes, soft_delete_path, List.filterMap_map]
  exact softDeleteLoop_mem_active path X

/-- Helper: `index_file` on a supported, statable path returning no new
chunks (empty text, no chunks, or an empty dedup result) only performs
the soft delete. -/
theorem index_file_degenerate_eq (s : RAGIndex) (d : RagDisk)
    (path mtime : Str) (ex : Extracted)
    (h : pyStrip ex.full_text = [] ∨ chunkEntries ex = []
      ∨ (dedupLoop s.size path (basename (dirname path)) mtime [] 0
          (chunkEntries ex)).2 = []) :
    index_file s d path true (some mtime) ex
      = (⟨0, (soft_delete_path path d.metaFile).1⟩, s,
         { d with metaFile := (soft_delete_path path d.metaFile).2 }) := by
  rcases h with h | h | h
  · simp [index_file, h]
  · simp [index_file, h]
  · by_cases h1 : pyStrip ex.full_text = []
    · simp [index_file, h1]
    · by_cases h2 : chunkEntries ex = []
      · simp [index_file, h2]
      · simp [index_file, h1, h2, h]

/-- Helper: `index_file` in the main (inserting) branch, spelled out. -/
theorem index_file_main_eq (s : RAGIndex) (d : RagDisk) (path mtime : Str)
    (ex : Extracted)
    (h1 : pyStrip ex.full_text ≠ []) (h2 : chunkEntries ex ≠ [])
    (h3 : (dedupLoop s.size path (basename (dirname path)) mtime [] 0
      (chunkEntries ex)).2 ≠ []) :
    index_file s d path true (some mtime) ex
      = (⟨(dedupLoop s.size path (basename (dirname path)) mtime [] 0
            (chunkEntries ex)).2.length,
          (soft_delete_path path d.metaFile).1⟩,
         { index := some ((lazyIndex s { d with metaFile :=
             (soft_delete_path path d.metaFile).2 }).1 ++
             (dedupLoop s.size path (basename (dirname path)) mtime [] 0
               (chunkEntries ex)).2),
           size := ((lazyIndex s { d with metaFile :=
             (soft_delete_path path d.metaFile).2 }).1 ++
             (dedupLoop s.size path (basename (dirname path)) mtime [] 0
               (chunkEntries ex)).2).length },
         { faissFile := some ((lazyIndex s { d with metaFile :=
             (soft_delete_path path d.metaFile).2 }).1 ++
             (dedupLoop s.size path (basename (dirname path)) mtime [] 0
               (chunkEntries ex)).2),
           metaFile := (soft_delete_path path d.metaFile).2 ++
             (dedupLoop s.size path (basename (dirname path)) mtime [] 0
               (chunkEntries ex)).1.map some }) := by
  simp [index_file, h1, h2, h3]

/-- Helper: active counts add over file concatenation. -/
theorem countActive_append (path : Str) (a b : List (Option MetaEntry)) :
    countActive path (a ++ b) = countActive path a + countActive path b := by
  simp [countActive, List.filterMap_append, List.filter_append]

/-- Helper: active hashes concatenate over file concatenation. -/
theorem activeHashes_append (path : Str) (a b : List (Option MetaEntry)) :
    activeHashes path (a ++ b)
      = activeHashes path a ++ activeHashes path b := by
  simp [activeHashes, List.filterMap_append, List.filter_append]

/-- Helper: appended entries that are all active for the path are all
counted. -/
theorem countActive_map_some (path : Str) (metas : List MetaEntry)
    (h : ∀ m ∈ metas, m.path = path ∧ m.deleted = false) :
    countActive path (metas.map some) = metas.length := by
  simp [countActive, List.filterMap_map]
  exact h

/-- Helper: likewise their hashes are all listed. -/
theorem activeHashes_map_some (path : Str) (metas : List MetaEntry)
    (h : ∀ m ∈ metas, m.path = path ∧ m.deleted = false) :
    activeHashes path (metas.map some)
      = metas.map (fun m => m.text_hash) := by
  have hf : metas.filter (fun m => decide (m.path = path) && !m.deleted)
      = metas :=
    List.filter_eq_self.mpr (fun a ha => by
      have hh := h a ha
      simp [hh.1, hh.2])
  simp [activeHashes, List.filterMap_map, hf]

/-- C6: indexing the same unchanged supported file twice in a row (same
extraction result, same mtime) yields the same `added` count on both
passes, leaves the number of active sidecar entries for the path equal
after the second pass, and the active entries carry identical text
hashes: the second pass soft-deletes the prior N entries and re-inserts
N entries hashing identically. -/
theorem index_file_unchanged_reindex (s : RAGIndex) (d : RagDisk)
    (path mtime : Str) (ex : Extracted) :
    (index_file (index_file s d path true (some mtime) ex).2.1
        (index_file s d path true (some mtime) ex).2.2 path true (some mtime)
        ex).1.added
      = (index_file s d path true (some mtime) ex).1.added
    ∧ countActive path (index_file (index_file s d path true (some mtime)
          ex).2.1 (index_file s d path true (some mtime) ex).2.2 path true
          (some mtime) ex).2.2.metaFile
        = countActive path
            (index_file s d path true (some mtime) ex).2.2.metaFile
    ∧ activeHashes path (index_file (index_file s d path true (some mtime)
          ex).2.1 (index_file s d path true (some mtime) ex).2.2 path true
          (some mtime) ex).2.2.metaFile
        = activeHashes path
            (index_file s d path true (some mtime) ex).2.2.metaFile := by
  by_cases hdeg : pyStrip ex.full_text = [] ∨ chunkEntries ex = []
      ∨ (dedupLoop s.size path (basename (dirname path)) mtime [] 0
          (chunkEntries ex)).2 = []
  · rw [index_file_degenerate_eq s d path mtime ex hdeg]
    rw [index_file_degenerate_eq s _ path mtime ex hdeg]
    exact ⟨rfl, by simp [countActive_soft_delete],
      by simp [activeHashes_soft_delete]⟩
  · push_neg at hdeg
    obtain ⟨h1, h2, h3⟩ := hdeg
    have hdd := dedupLoop_indep path (basename (dirname path)) mtime
      (chunkEntries ex)
    rw [index_file_main_eq s d path mtime ex h1 h2 h3]
    have h3b : ∀ s0 : Nat,
        (dedupLoop s0 path (basename (dirname path)) mtime [] 0
          (chunkEntries ex)).2 ≠ [] := by
      intro s0
      rw [(hdd s0 s.size 0 0 []).2]
      exact h3
    rw [index_file_main_eq _ _ path mtime ex h1 h2 (h3b _)]
    have hmap := (hdd ((lazyIndex s { d with metaFile :=
        (soft_delete_path path d.metaFile).2 }).1 ++
        (dedupLoop s.size path (basename (dirname path)) mtime [] 0
          (chunkEntries ex)).2).length s.size 0 0 []).1
    have htx := (hdd ((lazyIndex s { d with metaFile :=
        (soft_delete_path path d.metaFile).2 }).1 ++
        (dedupLoop s.size path (basename (dirname path)) mtime [] 0
          (chunkEntries ex)).2).length s.size 0 0 []).2
    refine ⟨by rw [htx], ?_, ?_⟩
    · rw [countActive_append, countActive_append, countActive_soft_delete,
        countActive_soft_delete,
        countActive_map_some path _ (dedupLoop_metas_active _ _ _ _ _ _ _),
        countActive_map_some path _ (dedupLoop_metas_active _ _ _ _ _ _ _)]
      have := congrArg List.length hmap
      simpa using this
    · rw [activeHashes_append, activeHashes_append,
        activeHashes_soft_delete, activeHashes_soft_delete,
        activeHashes_map_some path _ (dedupLoop_metas_active _ _ _ _ _ _ _),
        activeHashes_map_some path _ (dedupLoop_metas_active _ _ _ _ _ _ _)]
      have := congrArg (List.map fun m : MetaEntry => m.text_hash) hmap
      simpa using this

/-! ## Claim C4: hard-wrapping of oversized paragraphs -/

/-- Length of the longest paragraph the chunker derives from the text. -/
def maxParaLen (text : Str) : Nat :=
  ((paragraphsOf text).map List.length).foldr max 0

/-- C4 counterexample: with `max_chars = 3 > overlap = 1 ≥ 0`, the single
paragraph `aaaaa` exceeds `max_chars` yet is emitted as one unwrapped
chunk of length 5 — the hard-wrap at `indexer.py` lines 139-145 runs only
when an oversized paragraph overflows a non-empty buffer, never for a
paragraph that starts a fresh buffer, so chunks can exceed `max_chars`. -/
theorem oversized_first_paragraph_not_wrapped :
    iter_sliding_windows 3 1 "aaaaa".data = ["aaaaa".data] ∧
      ("aaaaa".data : Str).length > 3 := by decide

/-- Helper: every element of a list is bounded by its max fold. -/
theorem le_foldr_max : ∀ (l : List Nat), ∀ x ∈ l, x ≤ l.foldr max 0
  | [], x, hx => by simp at hx
  | a :: t, x, hx => by
    rcases List.mem_cons.mp hx with rfl | hx
    · exact le_max_left _ _
    · exact le_trans (le_foldr_max t x hx) (le_max_right _ _)

/-- Helper: hard-wrap slices are no longer than the slice width. -/
theorem mem_slices_length (step : Nat) (s : Str) :
    ∀ c ∈ slices step s, c.length ≤ step := by
  by_cases h : s = [] ∨ step = 0
  · rw [slices, dif_pos h]
    simp
  · rw [slices, dif_neg h]
    intro c hc
    rcases List.mem_cons.mp hc with rfl | hc
    · simpa using List.length_take_le step s
    · exact mem_slices_length step (s.drop step) c hc
termination_by s.length
decreasing_by
  simp only [not_or] at h
  have : 0 < s.length := List.length_pos.mpr h.1
  have : 0 < step := Nat.pos_of_ne_zero h.2
  simp [List.length_drop]
  omega

/-- Helper: the accumulation loop never emits a chunk longer than both
the window size and the longest paragraph, provided the incoming buffer
respects the bound. -/
theorem chunkLoop_length_bound (maxC ov M : Nat) (hov : ov < maxC) :
    ∀ (ps : List Str) (buf : Str), (∀ p ∈ ps, p.length ≤ M) →
      buf.length ≤ max maxC M →
      ∀ c ∈ chunkLoop maxC ov ps buf, c.length ≤ max maxC M
  | [], buf, hps, hbuf => by
    intro c hc
    by_cases hb : buf = []
    · simp [chunkLoop, hb] at hc
    · simp only [chunkLoop, if_neg hb, List.mem_singleton] at hc
      exact hc ▸ hbuf
  | p :: ps, buf, hps, hbuf => by
    intro c hc
    by_cases hb : buf = []
    · refine chunkLoop_length_bound maxC ov M hov ps p
        (fun q hq => hps q (List.mem_cons_of_mem _ hq))
        (le_trans (hps p (List.mem_cons_self _ _)) (le_max_right _ _)) c ?_
      simpa [chunkLoop, hb] using hc
    · by_cases hfit : buf.length + 2 + p.length ≤ maxC
      · refine chunkLoop_length_bound maxC ov M hov ps
          (buf ++ ('\n' :: '\n' :: p))
          (fun q hq => hps q (List.mem_cons_of_mem _ hq)) ?_ c ?_
        · simp only [List.length_append, List.length_cons]
          exact le_trans (by omega) (le_max_left maxC M)
        · simpa [chunkLoop, hb, hfit] using hc
      · simp only [chunkLoop, if_neg hb, if_neg hfit] at hc
        by_cases hw : maxC < (pyStrip ((if 0 < ov then
            buf.drop (buf.length - ov) else []) ++ ('\n' :: '\n' :: p))).length
        · rw [if_pos hw] at hc
          rcases List.mem_cons.mp hc with rfl | hc
          · exact hbuf
          · rcases List.mem_append.mp hc with hc | hc
            · have := mem_slices_length (maxC - ov) _ c hc
              exact le_trans this (le_trans (Nat.sub_le _ _)
                (le_max_left _ _))
            · exact chunkLoop_length_bound maxC ov M hov ps []
                (fun q hq => hps q (List.mem_cons_of_mem _ hq))
                (by simp) c hc
        · rw [if_neg hw] at hc
          rcases List.mem_cons.mp hc with rfl | hc
          · exact hbuf
          · refine chunkLoop_length_bound maxC ov M hov ps _
              (fun q hq => hps q (List.mem_cons_of_mem _ hq)) ?_ c hc
            exact le_trans (Nat.le_of_not_lt hw) (le_max_left _ _)

/-- C4 amended: the hard-wrap fires only when an oversized merge of
overlap tail and next paragraph lands on a non-empty buffer (its slices
are then at most `max_chars - overlap` long); a paragraph that starts a
fresh buffer is emitted whole even when longer than `max_chars`.
Consequently the chunk-length guarantee is `max(max_chars, longest
paragraph)` rather than `max_chars`. -/
theorem chunk_length_bounded_by_max_paragraph (maxC ov : Nat) (text : Str)
    (c : Str) (hov : ov < maxC)
    (hc : c ∈ iter_sliding_windows maxC ov text) :
    c.length ≤ max maxC (maxParaLen text) := by
  unfold iter_sliding_windows at hc
  by_cases ht : pyStrip text = []
  · simp [ht] at hc
  · rw [if_neg ht] at hc
    exact chunkLoop_length_bound maxC ov (maxParaLen text) hov
      (paragraphsOf text) []
      (fun p hp => le_foldr_max _ _ (List.mem_map_of_mem List.length hp))
      (by simp) c hc

/-- Witness for C4's amended bound at a concrete oversized paragraph. -/
theorem chunk_length_bounded_by_max_paragraph_witness :
    1 < 3 ∧ "aaaaa".data ∈ iter_sliding_windows 3 1 "aaaaa".data ∧
      ("aaaaa".data : Str).length ≤ max 3 (maxParaLen "aaaaa".data) :=
  ⟨by decide, by decide,
    chunk_length_bounded_by_max_paragraph 3 1 "aaaaa".data "aaaaa".data
      (by decide) (by decide)⟩

/-! ## Claim C5: chunking never drops paragraph content -/

/-- Helper: left-stripping is idempotent. -/
theorem dropWhile_pyIsSpace_idem (s : Str) :
    (s.dropWhile pyIsSpace).dropWhile pyIsSpace = s.dropWhile pyIsSpace := by
  induction s with
  | nil => rfl
  | cons c t ih =>
    by_cases hc : pyIsSpace c
    · simpa [List.dropWhile_cons, hc] using ih
    · simp [List.dropWhile_cons, hc]

/-- Helper: a list fixed by left-strip has a non-space head. -/
theorem head_not_space_of_lstrip_self {c : Char} {t : Str}
    (h : lstrip (c :: t) = c :: t) : pyIsSpace c = false := by
  by_cases hc : pyIsSpace c
  · exfalso
    rw [lstrip, List.dropWhile_cons, if_pos hc] at h
    have hlen := congrArg List.length h
    have hle := (List.dropWhile_sublist pyIsSpace (l := t)).length_le
    simp only [List.length_cons] at hlen
    omega
  · simpa using hc

/-- Helper: right-strip only removes characters. -/
theorem rstrip_sublist (t : Str) : List.Sublist (rstrip t) t := by
  have h := (List.dropWhile_sublist pyIsSpace (l := t.reverse)).reverse
  simpa [rstrip] using h

/-- Helper: a list fixed by `strip` is fixed by both one-sided strips. -/
theorem of_pyStrip_eq_self {w : Str} (h : pyStrip w = w) :
    lstrip w = w ∧ rstrip w = w := by
  have h1 : List.Sublist (lstrip w) w := List.dropWhile_sublist pyIsSpace
  have h2 : List.Sublist (rstrip (lstrip w)) (lstrip w) := rstrip_sublist _
  have hlen : w.length ≤ (lstrip w).length := by
    have e1 : (pyStrip w).length = w.length := congrArg List.length h
    have e2 : (rstrip (lstrip w)).length ≤ (lstrip w).length := h2.length_le
    simp only [pyStrip] at e1
    omega
  have hls : lstrip w = w := h1.eq_of_length (Nat.le_antisymm h1.length_le hlen)
  refine ⟨hls, ?_⟩
  calc rstrip w = rstrip (lstrip w) := by rw [hls]
    _ = w := h

/-- Helper: `strip` is idempotent. -/
theorem pyStrip_idem (s : Str) : pyStrip (pyStrip s) = pyStrip s := by
  have hu : lstrip (lstrip s) = lstrip s := dropWhile_pyIsSpace_idem s
  have hpre : ∃ z, lstrip s = rstrip (lstrip s) ++ z := by
    obtain ⟨t, ht⟩ := List.dropWhile_suffix (l := (lstrip s).reverse)
      (p := pyIsSpace)
    refine ⟨t.reverse, ?_⟩
    have := congrArg List.reverse ht
    simpa [rstrip, List.reverse_append] using this.symm
  have hA : lstrip (rstrip (lstrip s)) = rstrip (lstrip s) := by
    obtain ⟨z, hz⟩ := hpre
    cases hr : rstrip (lstrip s) with
    | nil => rfl
    | cons c w =>
      rw [hr] at hz
      have hhead : pyIsSpace c = false := by
        have : lstrip (c :: (w ++ z)) = c :: (w ++ z) := by
          rw [← List.cons_append, ← hz]
          exact hu
        exact head_not_space_of_lstrip_self this
      simp [lstrip, List.dropWhile_cons, hhead]
  have hB : rstrip (rstrip (lstrip s)) = rstrip (lstrip s) := by
    simp only [rstrip, List.reverse_reverse]
    rw [dropWhile_pyIsSpace_idem]
  simp only [pyStrip]
  rw [hA, hB]

/-- Helper: appending on the left of a right-stripped, non-empty list
does not disturb its end. -/
theorem rstrip_append_of_rstrip_self {w : Str} (hw : rstrip w = w)
    (hne : w ≠ []) (y : Str) : rstrip (y ++ w) = y ++ w := by
  have hrev : w.reverse.dropWhile pyIsSpace = w.reverse := by
    have := congrArg List.reverse hw
    simpa [rstrip] using this
  obtain ⟨c, t, hct⟩ : ∃ c t, w.reverse = c :: t := by
    cases hwr : w.reverse with
    | nil => exact absurd (by simpa using congrArg List.reverse hwr) hne
    | cons c t => exact ⟨c, t, rfl⟩
  have hhead : pyIsSpace c = false := by
    rw [hct] at hrev
    exact head_not_space_of_lstrip_self hrev
  simp only [rstrip, List.reverse_append, hct, List.cons_append,
    List.dropWhile_cons, hhead]
  simp [← List.cons_append, ← hct]

/-- Helper: left-stripping a string that ends in a left-stripped block
keeps the block as a suffix. -/
theorem lstrip_append_suffix {w : Str} (hw : lstrip w = w) :
    ∀ x : Str, ∃ y, lstrip (x ++ w) = y ++ w := by
  intro x
  induction x with
  | nil => exact ⟨[], by simpa using hw⟩
  | cons c t ih =>
    by_cases hc : pyIsSpace c
    · obtain ⟨y, hy⟩ := ih
      exact ⟨y, by simpa [lstrip, List.dropWhile_cons, hc] using hy⟩
    · exact ⟨c :: t, by simp [lstrip, List.dropWhile_cons, hc]⟩

/-- Helper: stripping text that ends in a stripped non-empty paragraph
keeps the paragraph intact as a suffix. -/
theorem pyStrip_append_suffix {w : Str} (hw : pyStrip w = w) (hne : w ≠ [])
    (x : Str) : ∃ y, pyStrip (x ++ w) = y ++ w := by
  obtain ⟨hl, hr⟩ := of_pyStrip_eq_self hw
  obtain ⟨y, hy⟩ := lstrip_append_suffix hl x
  exact ⟨y, by rw [pyStrip, hy, rstrip_append_of_rstrip_self hr hne]⟩

/-- Helper: the hard-wrap slices cover the sliced buffer exactly. -/
theorem slices_flatten (step : Nat) (hs : step ≠ 0) (s : Str) :
    (slices step s).flatten = s := by
  by_cases h : s = [] ∨ step = 0
  · rcases h with h | h
    · rw [slices, dif_pos (Or.inl h), h]
      rfl
    · exact absurd h hs
  · rw [slices, dif_neg h]
    rw [List.flatten_cons, slices_flatten step hs (s.drop step)]
    exact List.take_append_drop step s
termination_by s.length
decreasing_by
  simp only [not_or] at h
  have : 0 < s.length := List.length_pos.mpr h.1
  have : 0 < step := Nat.pos_of_ne_zero h.2
  simp [List.length_drop]
  omega

/-- Helper: the accumulation loop never loses paragraph content — the
concatenation of the incoming buffer and all remaining paragraphs is a
subsequence of the concatenation of the emitted chunks (the extra
characters in the chunks are the duplicated overlap tails and the
paragraph separators). -/
theorem chunkLoop_content (maxC ov : Nat) (hov : ov < maxC) :
    ∀ (ps : List Str) (buf : Str),
      (∀ p ∈ ps, pyStrip p = p ∧ p ≠ []) →
      List.Sublist (buf ++ ps.flatten) (chunkLoop maxC ov ps buf).flatten
  | [], buf, _ => by
    by_cases hb : buf = []
    · simp [chunkLoop, hb]
    · simp only [chunkLoop, if_neg hb, List.flatten_cons, List.flatten_nil,
        List.append_nil]
      exact List.Sublist.refl _
  | p :: ps, buf, hps => by
    have hp := hps p (List.mem_cons_self _ _)
    have hps2 : ∀ q ∈ ps, pyStrip q = q ∧ q ≠ [] :=
      fun q hq => hps q (List.mem_cons_of_mem _ hq)
    by_cases hb : buf = []
    · subst hb
      have ih := chunkLoop_content maxC ov hov ps p hps2
      simpa [chunkLoop] using ih
    · by_cases hfit : buf.length + 2 + p.length ≤ maxC
      · have hCL : chunkLoop maxC ov (p :: ps) buf
            = chunkLoop maxC ov ps (buf ++ ('\n' :: '\n' :: p)) := by
          simp [chunkLoop, hb, hfit]
        have ih := chunkLoop_content maxC ov hov ps
          (buf ++ ('\n' :: '\n' :: p)) hps2
        rw [hCL]
        have step1 : List.Sublist (buf ++ (p :: ps).flatten)
            (buf ++ (('\n' :: '\n' :: p) ++ ps.flatten)) := by
          rw [List.flatten_cons]
          refine List.Sublist.append_left ?_ buf
          rw [List.cons_append, List.cons_append]
          exact (List.sublist_cons_self _ _).trans (List.sublist_cons_self _ _)
        have step2 : List.Sublist
            (buf ++ (('\n' :: '\n' :: p) ++ ps.flatten))
            (chunkLoop maxC ov ps (buf ++ ('\n' :: '\n' :: p))).flatten := by
          rw [← List.append_assoc]
          exact ih
        exact step1.trans step2
      · have hsuffix : ∃ y, pyStrip ((if 0 < ov then
            buf.drop (buf.length - ov) else []) ++ ('\n' :: '\n' :: p))
              = y ++ p := by
          have hx : (if 0 < ov then buf.drop (buf.length - ov) else [])
              ++ ('\n' :: '\n' :: p)
              = ((if 0 < ov then buf.drop (buf.length - ov) else [])
                  ++ ['\n', '\n']) ++ p := by
            simp [List.append_assoc]
          rw [hx]
          exact pyStrip_append_suffix hp.1 hp.2 _
        obtain ⟨y, hy⟩ := hsuffix
        have ihnil := chunkLoop_content maxC ov hov ps [] hps2
        simp only [List.nil_append] at ihnil
        by_cases hw : maxC < (pyStrip ((if 0 < ov then
            buf.drop (buf.length - ov) else []) ++ ('\n' :: '\n' :: p))).length
        · have hCL : chunkLoop maxC ov (p :: ps) buf
              = buf :: (slices (maxC - ov) (pyStrip ((if 0 < ov then
                  buf.drop (buf.length - ov) else [])
                  ++ ('\n' :: '\n' :: p)))
                ++ chunkLoop maxC ov ps []) := by
            simp [chunkLoop, hb, hfit, hw]
          rw [hCL]
          simp only [List.flatten_cons, List.flatten_append]
          rw [slices_flatten (maxC - ov) (by omega) _]
          refine List.Sublist.append_left ?_ buf
          refine List.Sublist.append ?_ ihnil
          rw [hy]
          exact List.sublist_append_right y p
        · have hCL : chunkLoop maxC ov (p :: ps) buf
              = buf :: chunkLoop maxC ov ps (pyStrip ((if 0 < ov then
                  buf.drop (buf.length - ov) else [])
                  ++ ('\n' :: '\n' :: p))) := by
            simp [chunkLoop, hb, hfit, hw]
          have ih := chunkLoop_content maxC ov hov ps
            (pyStrip ((if 0 < ov then buf.drop (buf.length - ov) else [])
              ++ ('\n' :: '\n' :: p))) hps2
          rw [hCL]
          simp only [List.flatten_cons]
          refine List.Sublist.append_left ?_ buf
          refine List.Sublist.trans ?_ ih
          rw [hy, List.append_assoc]
          exact List.sublist_append_right y _
        

/-- Helper: every paragraph the chunker derives from a text with
non-empty stripped content is itself stripped and non-empty. -/
theorem paragraphsOf_stripped (text : Str) (ht : pyStrip text ≠ []) :
    ∀ p ∈ paragraphsOf text, pyStrip p = p ∧ p ≠ [] := by
  intro p hp
  simp only [paragraphsOf] at hp
  by_cases hps : ((splitPara (pyStrip text)).filterMap fun q =>
      if pyStrip q = [] then none else some (pyStrip q)) = []
  · rw [if_pos hps] at hp
    rcases List.mem_singleton.mp hp with rfl
    exact ⟨pyStrip_idem text, ht⟩
  · rw [if_neg hps] at hp
    obtain ⟨a, _, ha⟩ := List.mem_filterMap.mp hp
    by_cases hq : pyStrip a = []
    · rw [if_pos hq] at ha
      cases ha
    · rw [if_neg hq] at ha
      obtain rfl := Option.some.inj ha
      exact ⟨pyStrip_idem a, hq⟩

/-- C5: the chunker never drops paragraph content.  Empty or
whitespace-only input yields zero chunks; otherwise the blank-line
paragraphs of the input, concatenated in order, form a subsequence of
the concatenated emitted chunks — the extra chunk characters are only
the duplicated overlap regions and the injected separators, so every
paragraph survives in order. -/
theorem chunker_preserves_paragraph_content (maxC ov : Nat) (text : Str)
    (hov : ov < maxC) :
    (pyStrip text = [] → iter_sliding_windows maxC ov text = []) ∧
      List.Sublist (paragraphsOf text).flatten
        (iter_sliding_windows maxC ov text).flatten := by
  constructor
  · intro ht
    simp [iter_sliding_windows, ht]
  · by_cases ht : pyStrip text = []
    · have hpara : paragraphsOf text = [pyStrip text] := by
        simp only [paragraphsOf, ht]
        rw [if_pos]
        rfl
      simp [iter_sliding_windows, ht, hpara]
    · have hiter : iter_sliding_windows maxC ov text
          = chunkLoop maxC ov (paragraphsOf text) [] := by
        simp only [iter_sliding_windows]
        rw [if_neg ht]
      rw [hiter]
      have := chunkLoop_content maxC ov hov (paragraphsOf text) []
        (paragraphsOf_stripped text ht)
      simpa using this

/-- Witness for C5 at a concrete two-paragraph text. -/
theorem chunker_preserves_paragraph_content_witness :
    2 < 10 ∧
      ((pyStrip "ab\n\ncd".data = [] →
        iter_sliding_windows 10 2 "ab\n\ncd".data = []) ∧
        List.Sublist (paragraphsOf "ab\n\ncd".data).flatten
          (iter_sliding_windows 10 2 "ab\n\ncd".data).flatten) :=
  ⟨by decide, chunker_preserves_paragraph_content 10 2 "ab\n\ncd".data
    (by decide)⟩
